import Mathlib

/-!
# Verification of `kd_search_array.hpp` (array-backed kd-tree)

Shallow embedding of `ys::KDSearchArray<TYPE, N>` from `src/kd_search_array.hpp`
(with the demo driver `src/main.cpp`), specialised to `TYPE = Int`; the template
parameter `N` (the dimension count) is the Lean parameter `K`, and the point
collection `values` is a list of `K`-dimensional integer points.

Modelling conventions:
* `size_t` values are `Nat`; the sentinel `~0LU` is the constant `EMPTY = 2^64 - 1`.
  None of the arithmetic the claims depend on can overflow 64 bits in states a
  successful `prepare` can produce (the library itself asserts `length < ~0LU`).
* The member array `tree_` is a `List Nat`; a C++ store `tree_[i] = v` is
  `List.set i v`, which drops a store whose index is outside the array — the
  separate `buildWrites` function records every index `build` stores to, so an
  out-of-bounds store is still observable.
* Recursions (`build`, `find`, the `while` loop of `prepare`) are embedded with
  an explicit structural fuel so that every definition is executable; the fuel
  supplied by the wrappers (`build`, `find`, `nextPow2`) is a proven bound on
  the recursion depth, so the wrappers compute exactly the C++ recursion.
* `std::stable_sort` is modelled by its contract, a sorted permutation of the
  subrange (`List.insertionSort`).  The comparator the source passes at line 117
  (`values[l][d] <= values[r][d]`) is reproduced verbatim as `stableSortCmp`;
  note it is not a strict weak ordering (see the theorem for claim C6), so the
  C++ call's tie behaviour is not actually specified — no theorem below relies
  on a particular tie order.
* `find`'s entry assertion `assert(tree_[index] < ~0LU)` and the out-of-bounds
  read `tree_[index]` for `index ≥ length_` are modelled as the failure result
  `none`; a normal return of the output vector `points` is `some points`.
-/

namespace KD

/-- The empty-slot sentinel `~0LU` of a 64-bit `size_t`. -/
def EMPTY : Nat := 2 ^ 64 - 1

/-- `values[x][d]`: ordinate `d` of point `x` (out-of-range access defaults to `0`;
the code only evaluates it inside the asserted preconditions). -/
def ordv (values : List (List Int)) (x d : Nat) : Int :=
  (values.getD x []).getD d 0

/-- The comparator lambda the source passes to `std::stable_sort` at line 117:
`[values, d] (size_t l, size_t r) { return values[l][d] <= values[r][d]; }`. -/
def stableSortCmp (values : List (List Int)) (d l r : Nat) : Bool :=
  decide (ordv values l d ≤ ordv values r d)

/-- The ordering on buffer entries (point indices) induced by ordinate `d`. -/
def keyLe (values : List (List Int)) (d : Nat) (x y : Nat) : Prop :=
  ordv values x d ≤ ordv values y d

instance (values : List (List Int)) (d : Nat) : DecidableRel (keyLe values d) :=
  fun x y => inferInstanceAs (Decidable (ordv values x d ≤ ordv values y d))

instance (values : List (List Int)) (d : Nat) : IsTotal Nat (keyLe values d) :=
  ⟨fun a b => Int.le_total (ordv values a d) (ordv values b d)⟩

instance (values : List (List Int)) (d : Nat) : IsTrans Nat (keyLe values d) :=
  ⟨fun _ _ _ hab hbc => Int.le_trans hab hbc⟩

/-- The inclusive subrange `buffer[lo..hi]` of a working buffer. -/
def slice (b : List Nat) (lo hi : Nat) : List Nat :=
  (b.drop lo).take (hi + 1 - lo)

/-- `std::stable_sort(buffer + lo, buffer + hi + 1, cmp)` on ordinate `d`:
the subrange `[lo, hi]` is replaced by a sorted permutation of itself and
everything outside it is untouched. -/
def sortRange (values : List (List Int)) (d : Nat) (b : List Nat) (lo hi : Nat) : List Nat :=
  b.take lo ++ List.insertionSort (keyLe values d) (slice b lo hi) ++ b.drop (hi + 1)

/-- `KDSearchArray::build` (lines 99-126), fuelled.  One unit of fuel per
recursion level; `hi + 1 - lo` bounds the depth because each child range is
strictly smaller.  Returns the final working buffer and tree array. -/
def buildF (values : List (List Int)) (K : Nat) :
    Nat → List Nat → List Nat → Nat → Nat → Nat → Nat → List Nat × List Nat
  | 0, b, t, _, _, _, _ => (b, t)
  | fuel + 1, b, t, index, lo, hi, depth =>
    let k := (lo + hi) / 2
    let b1 := if lo < hi then sortRange values (depth % K) b lo hi else b
    let t1 := t.set index (b1.getD k 0)
    let p := if lo < k then buildF values K fuel b1 t1 (index * 2 + 1) lo (k - 1) (depth + 1)
             else (b1, t1)
    if k < hi then buildF values K fuel p.1 p.2 (index * 2 + 2) (k + 1) hi (depth + 1) else p

/-- `KDSearchArray::build` with the canonical (sufficient) fuel. -/
def build (values : List (List Int)) (K : Nat) (b t : List Nat) (index lo hi depth : Nat) :
    List Nat × List Nat :=
  buildF values K (hi + 1 - lo) b t index lo hi depth

/-- The sequence of tree-array indices `build` stores to (its control flow
depends only on `lo`, `hi` and `index`). -/
def buildWritesF : Nat → Nat → Nat → Nat → List Nat
  | 0, _, _, _ => []
  | fuel + 1, index, lo, hi =>
    let k := (lo + hi) / 2
    index :: ((if lo < k then buildWritesF fuel (index * 2 + 1) lo (k - 1) else []) ++
      (if k < hi then buildWritesF fuel (index * 2 + 2) (k + 1) hi else []))

/-- Indices stored to by `build _ _ _ _ index lo hi _`, with canonical fuel. -/
def buildWrites (index lo hi : Nat) : List Nat :=
  buildWritesF (hi + 1 - lo) index lo hi

/-- The sizing loop of `prepare` (lines 182-183): `size_t l(1); while (l < length) l *= 2;`,
fuelled (`length` units suffice since `1` doubles past `length` within `length` steps). -/
def nextPow2F (length : Nat) : Nat → Nat → Nat
  | 0, l => l
  | fuel + 1, l => if l < length then nextPow2F length fuel (l * 2) else l

/-- The array size `l` computed by `prepare`. -/
def nextPow2 (length : Nat) : Nat := nextPow2F length length 1

/-- The data content of a successful `KDSearchArray::prepare` (lines 173-211):
the tree array (`l` slots, sentinel-filled, then populated by
`build(buffer, values, 0, 0, length-1, 0)` on the identity buffer) and the
stored capacity `length_ = l`. -/
def prepare (values : List (List Int)) (K : Nat) (length : Nat) : List Nat × Nat :=
  let l := nextPow2 length
  let tree := List.replicate l EMPTY
  let buffer := List.range length
  ((build values K buffer tree 0 0 (length - 1) 0).2, l)

/-- The containment loop of `find` (lines 237-241): point `x` is inside the
query box `[lo, hi]` on every dimension. -/
def inBox (values : List (List Int)) (K : Nat) (lo hi : List Int) (x : Nat) : Bool :=
  (List.range K).all fun i =>
    decide (lo.getD i 0 ≤ ordv values x i) && decide (ordv values x i ≤ hi.getD i 0)

/-- `KDSearchArray::find` (lines 223-255), fuelled.  `none` models a failed
entry (out-of-bounds read of `tree_[index]`, or the assertion
`tree_[index] < ~0LU` firing); `some points` is a normal return of the output
vector.  Child recursion is guarded exactly as in the source:
`k < length_ && tree_[k] < ~0LU && <prune test>`. -/
def findF (values : List (List Int)) (K : Nat) (lo hi : List Int) (tree : List Nat) (L : Nat) :
    Nat → Nat → Nat → List Nat → Option (List Nat)
  | 0, _, _, _ => none
  | fuel + 1, index, depth, points =>
    match tree[index]? with
    | none => none
    | some x =>
      if x < EMPTY then
        let points1 := if inBox values K lo hi x then points ++ [x] else points
        let k := index * 2 + 1
        let d := depth % K
        let step :=
          if k < L ∧ tree.getD k EMPTY < EMPTY ∧ lo.getD d 0 ≤ ordv values x d then
            findF values K lo hi tree L fuel k (depth + 1) points1
          else some points1
        match step with
        | none => none
        | some points2 =>
          if k + 1 < L ∧ tree.getD (k + 1) EMPTY < EMPTY ∧ ordv values x d ≤ hi.getD d 0 then
            findF values K lo hi tree L fuel (k + 1) (depth + 1) points2
          else some points2
      else none

/-- `KDSearchArray::find` with canonical fuel (`L + 1` bounds the recursion
depth because the child index strictly grows and is guarded by `< L`). -/
def find (values : List (List Int)) (K : Nat) (lo hi : List Int) (tree : List Nat)
    (L index depth : Nat) (points : List Nat) : Option (List Nat) :=
  findF values K lo hi tree L (L + 1) index depth points

/-- Modelled from the spec: the brute-force reference of §8, "a linear scan
testing each point against the box directly" — every `i < M` with
`queryMin[d] ≤ point[i][d] ≤ queryMax[d]` for all `d < K`. -/
def linearScanSpec (values : List (List Int)) (K M : Nat) (lo hi : List Int) : List Nat :=
  (List.range M).filter (inBox values K lo hi)

/-- `j` is a slot of the (implicit, heap-indexed) subtree rooted at slot `i`:
repeatedly taking the parent `(j - 1) / 2` reaches `i`. -/
def InSubtree (i j : Nat) : Prop := ∃ d, (j + 1) / 2 ^ d = i + 1

/-- The tree depth of heap slot `i` (slot `0` is the root at depth `0`,
children of a depth-`d` slot are at depth `d + 1`). -/
def heapDepth (i : Nat) : Nat := Nat.log2 (i + 1)

/-- State of the `tree_` member pointer, for the allocation-failure claim:
`null` (`tree_ == 0`), `valid l` (owns an `l`-slot allocation), or `dangling`
(points at memory that has been `delete[]`d). -/
inductive Ptr where
  | null : Ptr
  | valid : Nat → Ptr
  | dangling : Ptr
deriving DecidableEq

/-- The `(tree_, length_)` members of a `KDSearchArray`. -/
structure KDState where
  tree : Ptr
  length : Nat
deriving DecidableEq

/-- The member-pointer lifecycle of `prepare` (lines 181-211), with the two
`new` outcomes as oracles.  Lines 185-188 free and null any prior tree; if
`new size_t[l]` throws, `tree_` stays null; if it succeeds but
`new size_t[length]` throws, the failure path (lines 198-202) runs
`delete [] tree_` without nulling the member, leaving it dangling.  On success
the build runs and `length_ = l` is stored. -/
def prepareAlloc (st : KDState) (length : Nat) (allocTree allocBuffer : Bool) : Bool × KDState :=
  let l := nextPow2 length
  let tree : Ptr := if allocTree then Ptr.valid l else Ptr.null
  let bufferOk := allocTree && allocBuffer
  if tree = Ptr.null || !bufferOk then
    (false, ⟨if tree = Ptr.null then Ptr.null else Ptr.dangling, st.length⟩)
  else
    (true, ⟨Ptr.valid l, l⟩)

/-- The `K = 2` demo point collection of `src/main.cpp` (indices 0-5). -/
def demoValues : List (List Int) := [[2, 1], [2, 2], [4, 2], [6, 2], [3, 3], [5, 4]]

end KD

namespace KD

/-! ## Concrete evaluations settling the computational claims -/

/-- Claim C8: for the `main.cpp` demo collection (K = 2, M = 6), after a
successful `prepare` the set of indices `find` appends is exactly
`{0,1,2,4}` for box `[(2,0),(4,4)]`, `{2,3,5}` for `[(4,2),(10,5)]`,
`{0,…,5}` for `[(0,0),(10,10)]` and `{}` for `[(100,100),(200,200)]`
(each qualifying index appended exactly once). -/
theorem C8_demo_queries :
    (prepare demoValues 2 6).2 = 8 ∧
    (find demoValues 2 [2, 0] [4, 4] (prepare demoValues 2 6).1 8 0 0 [] = some [4, 0, 1, 2] ∧
      [4, 0, 1, 2].Perm [0, 1, 2, 4]) ∧
    (find demoValues 2 [4, 2] [10, 5] (prepare demoValues 2 6).1 8 0 0 [] = some [3, 2, 5] ∧
      [3, 2, 5].Perm [2, 3, 5]) ∧
    (find demoValues 2 [0, 0] [10, 10] (prepare demoValues 2 6).1 8 0 0 [] =
        some [4, 0, 1, 3, 2, 5] ∧
      [4, 0, 1, 3, 2, 5].Perm [0, 1, 2, 3, 4, 5]) ∧
    find demoValues 2 [100, 100] [200, 200] (prepare demoValues 2 6).1 8 0 0 [] = some [] := by
  decide

/-- Claim C1 fails on the code: for `M = 2` (any power of two ≥ 2), `build`
stores the rightmost leaf at slot `2` of the 2-slot array — an out-of-bounds
write — so the larger point is in no reachable slot and `find` misses it.
Here: points `(0)` and `(1)` (K = 1), query box `[-10, 10]` containing both;
`find` reports only `{0}` while the linear scan reports `{0, 1}`. -/
theorem C1_pow2_overflow :
    prepare [[0], [1]] 1 2 = ([0, EMPTY], 2) ∧
    find [[0], [1]] 1 [-10] [10] (prepare [[0], [1]] 1 2).1 (prepare [[0], [1]] 1 2).2 0 0 [] =
      some [0] ∧
    linearScanSpec [[0], [1]] 1 2 [-10] [10] = [0, 1] ∧
    buildWrites 0 0 1 = [0, 2] ∧ nextPow2 2 = 2 ∧
    ¬ ∃ r, find [[0], [1]] 1 [-10] [10] (prepare [[0], [1]] 1 2).1 (prepare [[0], [1]] 1 2).2
        0 0 [] = some r ∧ r.Perm (linearScanSpec [[0], [1]] 1 2 [-10] [10]) := by
  refine ⟨by decide, by decide, by decide, by decide, by decide, ?_⟩
  rintro ⟨r, hr, hp⟩
  have h0 : find [[0], [1]] 1 [-10] [10] (prepare [[0], [1]] 1 2).1 (prepare [[0], [1]] 1 2).2
      0 0 [] = some [0] := by decide
  rw [h0] at hr
  injection hr with h
  subst h
  exact absurd hp (by decide)

/-- Claim C10 fails on the code: for `M = 4`, `build` writes the index of the
largest point to slot `6` of the 4-slot array (out of bounds), so point index
`3` occupies no slot, only 3 of the `M = 4` slots are non-sentinel, and one
sentinel slot remains although `L - M = 0`. -/
theorem C10_pow2_missing_index :
    prepare [[0], [1], [2], [3]] 1 4 = ([1, 0, 2, EMPTY], 4) ∧
    ¬ 3 ∈ (prepare [[0], [1], [2], [3]] 1 4).1 ∧
    (prepare [[0], [1], [2], [3]] 1 4).1.count EMPTY = 1 ∧
    buildWrites 0 0 3 = [0, 1, 2, 6] ∧ nextPow2 4 = 4 := by
  decide

/-- Claim C4 fails on the code: when the tree allocation succeeds but the
working-buffer allocation fails, the failure path of `prepare` (line 199)
runs `delete [] tree_` without nulling the member, so `prepare` returns
`false` with `tree_` left dangling (and `length_` stale) — not the unset/empty
state the claim requires (the destructor will then double-free). -/
theorem C4_alloc_failure_dangling :
    prepareAlloc ⟨Ptr.valid 8, 8⟩ 6 true false = (false, ⟨Ptr.dangling, 8⟩) ∧
    Ptr.dangling ≠ Ptr.null := by
  decide

/-- Claim C6 fails on the code: the comparator passed to `std::stable_sort`
(line 117) uses `<=`, so on the demo collection it returns `true` both ways
for the tied indices 1 and 2 (both with ordinate 2 on dimension 1) and is not
irreflexive — it is not a strict weak ordering, violating the precondition of
`std::stable_sort`, so the tie order the claim asserts is not guaranteed. -/
theorem C6_comparator_not_strict :
    stableSortCmp demoValues 1 1 2 = true ∧ stableSortCmp demoValues 1 2 1 = true ∧
    stableSortCmp demoValues 1 1 1 = true ∧ ordv demoValues 1 1 = ordv demoValues 2 1 := by
  decide

/-- Counterexample to claim C5: `find` invoked directly at a sentinel slot
does not return normally with nothing appended (`some []`) — its entry
assertion `tree_[index] < ~0LU` fails (result `none`); likewise a start index
beyond the array is an out-of-bounds read, not a silent return. -/
theorem C5_counterexample :
    ¬ find [[0]] 1 [0] [0] [EMPTY] 1 0 0 [] = some [] ∧
    find [[0]] 1 [0] [0] [EMPTY] 1 0 0 [] = none ∧
    find [[0]] 1 [0] [0] [EMPTY] 1 5 0 [] = none := by
  decide

end KD

namespace KD

/-! ## Heap-index arithmetic -/

theorem InSubtree.refl (i : Nat) : InSubtree i i :=
  ⟨0, by simp⟩

theorem InSubtree.le {i j : Nat} (h : InSubtree i j) : i ≤ j := by
  obtain ⟨d, hd⟩ := h
  have := Nat.div_le_self (j + 1) (2 ^ d)
  omega

theorem InSubtree.trans {i j k : Nat} (h1 : InSubtree i j) (h2 : InSubtree j k) :
    InSubtree i k := by
  obtain ⟨a, ha⟩ := h1
  obtain ⟨b, hb⟩ := h2
  exact ⟨b + a, by rw [pow_add, ← Nat.div_div_eq_div_mul, hb, ha]⟩

theorem InSubtree.left (i : Nat) : InSubtree i (i * 2 + 1) :=
  ⟨1, by simp [pow_one]; omega⟩

theorem InSubtree.right (i : Nat) : InSubtree i (i * 2 + 2) :=
  ⟨1, by simp [pow_one]; omega⟩

theorem InSubtree.cases {i j : Nat} (h : InSubtree i j) :
    j = i ∨ InSubtree (i * 2 + 1) j ∨ InSubtree (i * 2 + 2) j := by
  obtain ⟨d, hd⟩ := h
  cases d with
  | zero => left; simpa using hd
  | succ d =>
    right
    have key : (j + 1) / 2 ^ d / 2 = i + 1 := by
      rw [Nat.div_div_eq_div_mul, ← pow_succ]
      exact hd
    rcases (by omega : (j + 1) / 2 ^ d = i * 2 + 2 ∨ (j + 1) / 2 ^ d = i * 2 + 3) with h1 | h1
    · exact Or.inl ⟨d, h1⟩
    · exact Or.inr ⟨d, h1⟩

theorem subtree_disjoint {i j : Nat} (h1 : InSubtree (i * 2 + 1) j)
    (h2 : InSubtree (i * 2 + 2) j) : False := by
  obtain ⟨a, ha⟩ := h1
  obtain ⟨b, hb⟩ := h2
  rcases Nat.le_total a b with hab | hab
  · rcases Nat.eq_or_lt_of_le hab with rfl | hlt
    · omega
    · have he : (j + 1) / 2 ^ b = (i * 2 + 1 + 1) / 2 ^ (b - a) := by
        rw [← ha, Nat.div_div_eq_div_mul, ← pow_add]
        congr 2
        omega
      have hsplit : (i * 2 + 1 + 1) / 2 ^ (b - a) = (i * 2 + 1 + 1) / 2 / 2 ^ (b - a - 1) := by
        rw [Nat.div_div_eq_div_mul]
        congr 1
        rw [← pow_succ']
        congr 1
        omega
      rw [he, hsplit] at hb
      have hself := Nat.div_le_self ((i * 2 + 1 + 1) / 2) (2 ^ (b - a - 1))
      omega
  · rcases Nat.eq_or_lt_of_le hab with rfl | hlt
    · omega
    · have he : (j + 1) / 2 ^ a = (i * 2 + 2 + 1) / 2 ^ (a - b) := by
        rw [← hb, Nat.div_div_eq_div_mul, ← pow_add]
        congr 2
        omega
      have hsplit : (i * 2 + 2 + 1) / 2 ^ (a - b) = (i * 2 + 2 + 1) / 2 / 2 ^ (a - b - 1) := by
        rw [Nat.div_div_eq_div_mul]
        congr 1
        rw [← pow_succ']
        congr 1
        omega
      rw [he, hsplit] at ha
      have hself := Nat.div_le_self ((i * 2 + 2 + 1) / 2) (2 ^ (a - b - 1))
      omega

theorem InSubtree_zero (j : Nat) : InSubtree 0 j := by
  refine ⟨Nat.log2 (j + 1), ?_⟩
  have h1 := Nat.log2_self_le (show j + 1 ≠ 0 by omega)
  have h2 := @Nat.lt_log2_self (j + 1)
  have hpos : 0 < 2 ^ Nat.log2 (j + 1) := Nat.two_pow_pos _
  have hle : 1 ≤ (j + 1) / 2 ^ Nat.log2 (j + 1) :=
    (Nat.le_div_iff_mul_le hpos).2 (by omega)
  have hlt : (j + 1) / 2 ^ Nat.log2 (j + 1) < 2 :=
    (Nat.div_lt_iff_lt_mul hpos).2 (by rw [pow_succ] at h2; omega)
  omega

theorem heapDepth_left (i : Nat) : heapDepth (i * 2 + 1) = heapDepth i + 1 := by
  unfold heapDepth
  have h1 := Nat.log2_self_le (show i + 1 ≠ 0 by omega)
  have h2 := @Nat.lt_log2_self (i + 1)
  have hl : Nat.log2 (i + 1) + 1 ≤ Nat.log2 (i * 2 + 1 + 1) :=
    (Nat.le_log2 (by omega)).2 (by rw [pow_succ]; omega)
  have hr : Nat.log2 (i * 2 + 1 + 1) < Nat.log2 (i + 1) + 2 :=
    (Nat.log2_lt (by omega)).2 (by rw [pow_succ, pow_succ]; omega)
  omega

theorem heapDepth_right (i : Nat) : heapDepth (i * 2 + 2) = heapDepth i + 1 := by
  unfold heapDepth
  have h1 := Nat.log2_self_le (show i + 1 ≠ 0 by omega)
  have h2 := @Nat.lt_log2_self (i + 1)
  have hl : Nat.log2 (i + 1) + 1 ≤ Nat.log2 (i * 2 + 2 + 1) :=
    (Nat.le_log2 (by omega)).2 (by rw [pow_succ]; omega)
  have hr : Nat.log2 (i * 2 + 2 + 1) < Nat.log2 (i + 1) + 2 :=
    (Nat.log2_lt (by omega)).2 (by rw [pow_succ, pow_succ]; omega)
  omega

theorem heapDepth_zero : heapDepth 0 = 0 := by
  simp [heapDepth, Nat.log2]

/-! ## Array accessor facts -/

theorem getD_set_self {t : List Nat} {i v d : Nat} (h : i < t.length) :
    (t.set i v).getD i d = v := by
  simp [List.getD_eq_getElem?_getD, List.getElem?_set_self h]

theorem getD_set_ne {t : List Nat} {i j v d : Nat} (h : i ≠ j) :
    (t.set i v).getD j d = t.getD j d := by
  simp [List.getD_eq_getElem?_getD, List.getElem?_set_ne h]

theorem getD_oob {t : List Nat} {i d : Nat} (h : t.length ≤ i) : t.getD i d = d := by
  simp [List.getD_eq_getElem?_getD, List.getElem?_eq_none h]

/-! ## Slice and sort-step facts -/

theorem length_slice {b : List Nat} {lo hi : Nat} (hlo : lo ≤ hi) (hhi : hi < b.length) :
    (slice b lo hi).length = hi + 1 - lo := by
  simp only [slice, List.length_take, List.length_drop]
  omega

theorem getD_slice {b : List Nat} {lo hi j : Nat} (h : j < hi + 1 - lo) :
    (slice b lo hi).getD j 0 = b.getD (lo + j) 0 := by
  simp [slice, List.getD_eq_getElem?_getD, List.getElem?_take_of_lt h, List.getElem?_drop]

theorem mem_slice {b : List Nat} {lo hi x : Nat} (h : x ∈ slice b lo hi) : x ∈ b := by
  have h1 : List.Sublist (slice b lo hi) (b.drop lo) := List.take_sublist _ _
  have h2 : List.Sublist (b.drop lo) b := List.drop_sublist _ _
  exact (h1.trans h2).subset h

theorem take_slice_drop {b : List Nat} {lo hi : Nat} (h : lo ≤ hi + 1) :
    b.take lo ++ slice b lo hi ++ b.drop (hi + 1) = b := by
  have h1 : (b.drop lo).drop (hi + 1 - lo) = b.drop (hi + 1) := by
    rw [List.drop_drop]
    congr 1
    omega
  calc b.take lo ++ slice b lo hi ++ b.drop (hi + 1)
      = b.take lo ++ ((b.drop lo).take (hi + 1 - lo) ++ (b.drop lo).drop (hi + 1 - lo)) := by
        rw [h1, List.append_assoc]
        rfl
    _ = b := by rw [List.take_append_drop, List.take_append_drop]

theorem sortRange_perm (values : List (List Int)) (d : Nat) (b : List Nat) {lo hi : Nat}
    (h : lo ≤ hi + 1) : (sortRange values d b lo hi).Perm b := by
  have hmid : (List.insertionSort (keyLe values d) (slice b lo hi)).Perm (slice b lo hi) :=
    List.perm_insertionSort _ _
  have h2 : List.Perm (sortRange values d b lo hi)
      (b.take lo ++ slice b lo hi ++ b.drop (hi + 1)) :=
    (hmid.append_left (b.take lo)).append_right (b.drop (hi + 1))
  rw [take_slice_drop h] at h2
  exact h2

theorem length_sortRange (values : List (List Int)) (d : Nat) (b : List Nat) {lo hi : Nat}
    (h : lo ≤ hi + 1) : (sortRange values d b lo hi).length = b.length :=
  (sortRange_perm values d b h).length_eq

end KD

namespace KD

theorem getD_sortRange_outside (values : List (List Int)) (dm : Nat) (b : List Nat) {lo hi p : Nat}
    (hlo : lo ≤ hi) (hhi : hi < b.length) (hp : p < lo ∨ hi < p) :
    (sortRange values dm b lo hi).getD p 0 = b.getD p 0 := by
  have hpre : (b.take lo).length = lo := by
    rw [List.length_take]
    omega
  have hmid : (List.insertionSort (keyLe values dm) (slice b lo hi)).length = hi + 1 - lo := by
    rw [List.length_insertionSort, length_slice hlo hhi]
  have hpm : (b.take lo ++ List.insertionSort (keyLe values dm) (slice b lo hi)).length
      = hi + 1 := by
    rw [List.length_append, hpre, hmid]
    omega
  show (b.take lo ++ List.insertionSort (keyLe values dm) (slice b lo hi)
      ++ b.drop (hi + 1)).getD p 0 = b.getD p 0
  rcases hp with hp | hp
  · rw [List.getD_eq_getElem?_getD, List.getElem?_append_left (by rw [hpm]; omega),
      List.getElem?_append_left (by rw [hpre]; omega), List.getElem?_take_of_lt hp,
      ← List.getD_eq_getElem?_getD]
  · rw [List.getD_eq_getElem?_getD, List.getElem?_append_right (by rw [hpm]; omega),
      hpm, List.getElem?_drop]
    have hq : hi + 1 + (p - (hi + 1)) = p := by omega
    rw [hq, ← List.getD_eq_getElem?_getD]

theorem slice_sortRange (values : List (List Int)) (dm : Nat) (b : List Nat) {lo hi : Nat}
    (hlo : lo ≤ hi) (hhi : hi < b.length) :
    slice (sortRange values dm b lo hi) lo hi
      = List.insertionSort (keyLe values dm) (slice b lo hi) := by
  have hpre : (b.take lo).length = lo := by
    rw [List.length_take]
    omega
  have hmid : (List.insertionSort (keyLe values dm) (slice b lo hi)).length = hi + 1 - lo := by
    rw [List.length_insertionSort, length_slice hlo hhi]
  show ((b.take lo ++ List.insertionSort (keyLe values dm) (slice b lo hi)
      ++ b.drop (hi + 1)).drop lo).take (hi + 1 - lo)
      = List.insertionSort (keyLe values dm) (slice b lo hi)
  rw [List.append_assoc, List.drop_left' hpre, List.take_left' hmid]

/-! ## The sizing loop -/

theorem nextPow2F_spec (m : Nat) :
    ∀ fuel l i, l = 2 ^ i → m ≤ 2 ^ fuel * l → (∀ j, m ≤ 2 ^ j → l ≤ 2 ^ j) →
      m ≤ nextPow2F m fuel l ∧ (∃ j, nextPow2F m fuel l = 2 ^ j) ∧
        ∀ j, m ≤ 2 ^ j → nextPow2F m fuel l ≤ 2 ^ j
  | 0, l, i, hpow, hfuel, hleast => by
    refine ⟨by simpa using hfuel, ⟨i, hpow⟩, hleast⟩
  | fuel + 1, l, i, hpow, hfuel, hleast => by
    by_cases hl : l < m
    · have hpow2 : l * 2 = 2 ^ (i + 1) := by rw [pow_succ, hpow]
      have hfuel2 : m ≤ 2 ^ fuel * (l * 2) := by
        rw [pow_succ] at hfuel
        calc m ≤ 2 ^ fuel * 2 * l := hfuel
        _ = 2 ^ fuel * (l * 2) := by ring
      have hleast2 : ∀ j, m ≤ 2 ^ j → l * 2 ≤ 2 ^ j := by
        intro j hj
        have hji : i < j := by
          by_contra hji
          have : 2 ^ j ≤ 2 ^ i := Nat.pow_le_pow_right (by omega) (by omega)
          omega
        calc l * 2 = 2 ^ (i + 1) := hpow2
        _ ≤ 2 ^ j := Nat.pow_le_pow_right (by omega) (by omega)
      have ih := nextPow2F_spec m fuel (l * 2) (i + 1) hpow2 hfuel2 hleast2
      simpa [nextPow2F, hl] using ih
    · simpa [nextPow2F, hl] using ⟨by omega, ⟨i, hpow⟩, hleast⟩

theorem nextPow2_spec (m : Nat) :
    m ≤ nextPow2 m ∧ (∃ j, nextPow2 m = 2 ^ j) ∧ ∀ j, m ≤ 2 ^ j → nextPow2 m ≤ 2 ^ j := by
  have h1 : m ≤ 2 ^ m * 1 := by
    have := Nat.lt_two_pow m
    omega
  exact nextPow2F_spec m m 1 0 (by simp) h1 (fun j _ => Nat.one_le_two_pow)

end KD

namespace KD

/-! ## Frame facts about the builder -/

theorem buildF_length (values : List (List Int)) (K : Nat) :
    ∀ fuel b t index lo hi depth,
      (buildF values K fuel b t index lo hi depth).2.length = t.length := by
  intro fuel
  induction fuel with
  | zero => intro b t index lo hi depth; rfl
  | succ fuel ih =>
    intro b t index lo hi depth
    simp only [buildF]
    by_cases h2 : (lo + hi) / 2 < hi <;> by_cases h1 : lo < (lo + hi) / 2 <;>
      simp only [if_pos, if_neg, h1, h2, ite_true, ite_false] <;>
      simp [ih, List.length_set]

theorem buildF_frame (values : List (List Int)) (K : Nat) :
    ∀ fuel b t index lo hi depth s, ¬ InSubtree index s →
      (buildF values K fuel b t index lo hi depth).2.getD s EMPTY = t.getD s EMPTY := by
  intro fuel
  induction fuel with
  | zero => intros; rfl
  | succ fuel ih =>
    intro b t index lo hi depth s hs
    have hsi : index ≠ s := fun h => hs (h ▸ InSubtree.refl index)
    have hsl : ¬ InSubtree (index * 2 + 1) s := fun h => hs ((InSubtree.left index).trans h)
    have hsr : ¬ InSubtree (index * 2 + 2) s := fun h => hs ((InSubtree.right index).trans h)
    simp only [buildF]
    by_cases h2 : (lo + hi) / 2 < hi <;> by_cases h1 : lo < (lo + hi) / 2 <;>
      simp only [if_pos, if_neg, h1, h2, ite_true, ite_false] <;>
      first
        | rw [ih _ _ _ _ _ _ _ hsr, ih _ _ _ _ _ _ _ hsl, getD_set_ne hsi]
        | rw [ih _ _ _ _ _ _ _ hsr, getD_set_ne hsi]
        | rw [ih _ _ _ _ _ _ _ hsl, getD_set_ne hsi]
        | rw [getD_set_ne hsi]

end KD

namespace KD

theorem slice_split {x : List Nat} {lo k hi : Nat} (h1 : lo < k) (h2 : k ≤ hi + 1) :
    slice x lo hi = slice x lo (k - 1) ++ slice x k hi := by
  show (x.drop lo).take (hi + 1 - lo)
      = (x.drop lo).take (k - 1 + 1 - lo) ++ (x.drop k).take (hi + 1 - k)
  have ha : hi + 1 - lo = (k - lo) + (hi + 1 - k) := by omega
  have hb : k - 1 + 1 - lo = k - lo := by omega
  rw [ha, List.take_add, hb]
  congr 2
  rw [List.drop_drop]
  congr 1
  omega

theorem slice_congr {x y : List Nat} {lo hi : Nat} (hlen : x.length = y.length)
    (hhi : hi < x.length)
    (h : ∀ p, lo ≤ p → p ≤ hi → x.getD p 0 = y.getD p 0) :
    slice x lo hi = slice y lo hi := by
  apply List.ext_getElem?
  intro n
  by_cases hn : n < hi + 1 - lo
  · have hx : (slice x lo hi)[n]? = x[lo + n]? := by
      show ((x.drop lo).take (hi + 1 - lo))[n]? = x[lo + n]?
      rw [List.getElem?_take_of_lt hn, List.getElem?_drop]
    have hy : (slice y lo hi)[n]? = y[lo + n]? := by
      show ((y.drop lo).take (hi + 1 - lo))[n]? = y[lo + n]?
      rw [List.getElem?_take_of_lt hn, List.getElem?_drop]
    have hltx : lo + n < x.length := by omega
    have hlty : lo + n < y.length := by omega
    have hgd := h (lo + n) (by omega) (by omega)
    rw [List.getD_eq_getElem?_getD, List.getD_eq_getElem?_getD,
      List.getElem?_eq_getElem hltx, List.getElem?_eq_getElem hlty] at hgd
    simp only [Option.getD_some] at hgd
    rw [hx, hy, List.getElem?_eq_getElem hltx, List.getElem?_eq_getElem hlty, hgd]
  · have hx : (slice x lo hi)[n]? = none := by
      apply List.getElem?_eq_none
      show ((x.drop lo).take (hi + 1 - lo)).length ≤ n
      rw [List.length_take, List.length_drop]
      omega
    have hy : (slice y lo hi)[n]? = none := by
      apply List.getElem?_eq_none
      show ((y.drop lo).take (hi + 1 - lo)).length ≤ n
      rw [List.length_take, List.length_drop]
      omega
    rw [hx, hy]

theorem buildF_buf (values : List (List Int)) (K : Nat) :
    ∀ fuel b t index lo hi depth, lo ≤ hi → hi < b.length → hi + 1 - lo ≤ fuel →
      ((buildF values K fuel b t index lo hi depth).1.length = b.length ∧
       (∀ p, p < lo ∨ hi < p →
         (buildF values K fuel b t index lo hi depth).1.getD p 0 = b.getD p 0) ∧
       List.Perm (slice (buildF values K fuel b t index lo hi depth).1 lo hi)
         (slice b lo hi)) := by
  intro fuel
  induction fuel with
  | zero => intro b t index lo hi depth h1 h2 h3; omega
  | succ fuel ih =>
    intro b t index lo hi depth hlohi hhib hfuel
    rcases Nat.lt_or_ge lo hi with hlh | hlh
    · have hkhi2 : (lo + hi) / 2 < hi := by omega
      have hklo : lo ≤ (lo + hi) / 2 := by omega
      simp only [buildF, if_pos hkhi2, if_pos hlh]
      set b1 := sortRange values (depth % K) b lo hi with hb1
      have hlen1 : b1.length = b.length := length_sortRange values _ b (by omega)
      have hperm1 : List.Perm (slice b1 lo hi) (slice b lo hi) := by
        rw [hb1, slice_sortRange values _ b hlohi hhib]
        exact List.perm_insertionSort _ _
      have hout1 : ∀ p, p < lo ∨ hi < p → b1.getD p 0 = b.getD p 0 := by
        intro p hp
        exact getD_sortRange_outside values _ b hlohi hhib hp
      by_cases h1 : lo < (lo + hi) / 2
      · simp only [if_pos h1]
        set t1 := t.set index (b1.getD ((lo + hi) / 2) 0) with ht1
        obtain ⟨lenL, outL, permL⟩ := ih b1 t1 (index * 2 + 1) lo ((lo + hi) / 2 - 1)
          (depth + 1) (by omega) (by omega) (by omega)
        set bL := (buildF values K fuel b1 t1 (index * 2 + 1) lo ((lo + hi) / 2 - 1)
          (depth + 1)).1 with hbL
        set tL := (buildF values K fuel b1 t1 (index * 2 + 1) lo ((lo + hi) / 2 - 1)
          (depth + 1)).2 with htL
        obtain ⟨lenR, outR, permR⟩ := ih bL tL (index * 2 + 2) ((lo + hi) / 2 + 1) hi
          (depth + 1) (by omega) (by omega) (by omega)
        set bR := (buildF values K fuel bL tL (index * 2 + 2) ((lo + hi) / 2 + 1) hi
          (depth + 1)).1 with hbR
        refine ⟨by rw [lenR, lenL, hlen1], ?_, ?_⟩
        · intro p hp
          rw [outR p (by omega), outL p (by omega), hout1 p hp]
        · have e1 : slice bR lo hi = slice bR lo ((lo + hi) / 2 - 1)
              ++ slice bR ((lo + hi) / 2) hi :=
            slice_split h1 (by omega)
          have e2 : slice bR ((lo + hi) / 2) hi = slice bR ((lo + hi) / 2) ((lo + hi) / 2)
              ++ slice bR ((lo + hi) / 2 + 1) hi := by
            have := @slice_split bR ((lo + hi) / 2) ((lo + hi) / 2 + 1) hi
              (by omega) (by omega)
            simpa using this
          have eL : slice bR lo ((lo + hi) / 2 - 1) = slice bL lo ((lo + hi) / 2 - 1) :=
            slice_congr lenR (by omega) (fun p hp1 hp2 => outR p (by omega))
          have eM : slice bR ((lo + hi) / 2) ((lo + hi) / 2)
              = slice b1 ((lo + hi) / 2) ((lo + hi) / 2) := by
            apply slice_congr (by rw [lenR, lenL]) (by omega)
            intro p hp1 hp2
            rw [outR p (by omega), outL p (by omega)]
          have eR : slice bL ((lo + hi) / 2 + 1) hi = slice b1 ((lo + hi) / 2 + 1) hi :=
            slice_congr lenL (by omega) (fun p hp1 hp2 => outL p (by omega))
          have eback : slice b1 lo hi = slice b1 lo ((lo + hi) / 2 - 1)
              ++ (slice b1 ((lo + hi) / 2) ((lo + hi) / 2)
                ++ slice b1 ((lo + hi) / 2 + 1) hi) := by
            rw [@slice_split b1 lo ((lo + hi) / 2) hi h1 (by omega)]
            congr 1
            have := @slice_split b1 ((lo + hi) / 2) ((lo + hi) / 2 + 1) hi
              (by omega) (by omega)
            simpa using this
          rw [e1, e2, eL, eM]
          refine List.Perm.trans ?_ hperm1
          rw [eback]
          refine List.Perm.append permL (List.Perm.append (List.Perm.refl _) ?_)
          rw [← eR]
          exact permR
      · have hkeq : (lo + hi) / 2 = lo := by omega
        simp only [if_neg h1]
        set t1 := t.set index (b1.getD ((lo + hi) / 2) 0) with ht1
        obtain ⟨lenR, outR, permR⟩ := ih b1 t1 (index * 2 + 2) ((lo + hi) / 2 + 1) hi
          (depth + 1) (by omega) (by omega) (by omega)
        set bR := (buildF values K fuel b1 t1 (index * 2 + 2) ((lo + hi) / 2 + 1) hi
          (depth + 1)).1 with hbR
        refine ⟨by rw [lenR, hlen1], ?_, ?_⟩
        · intro p hp
          rw [outR p (by omega), hout1 p hp]
        · have e2 : slice bR lo hi = slice bR lo lo ++ slice bR (lo + 1) hi := by
            have := @slice_split bR lo (lo + 1) hi
              (by omega) (by omega)
            simpa using this
          have eM : slice bR lo lo = slice b1 lo lo := by
            apply slice_congr lenR (by omega)
            intro p hp1 hp2
            exact outR p (by omega)
          have eback : slice b1 lo hi = slice b1 lo lo ++ slice b1 (lo + 1) hi := by
            have := @slice_split b1 lo (lo + 1) hi
              (by omega) (by omega)
            simpa using this
          rw [e2, eM]
          refine List.Perm.trans ?_ hperm1
          rw [eback]
          exact (List.Perm.refl _).append (by rw [hkeq] at permR; exact permR)
    · have hlh2 : lo = hi := by omega
      have hkeq : (lo + hi) / 2 = lo := by omega
      have hnk : ¬ (lo + hi) / 2 < hi := by omega
      have hn1 : ¬ lo < (lo + hi) / 2 := by omega
      have hnlh : ¬ lo < hi := by omega
      simp only [buildF, if_neg hnk, if_neg hn1, if_neg hnlh]
      refine ⟨by simp, by simp, List.Perm.refl _⟩

end KD

namespace KD

theorem getD_mem {l : List Nat} {n d : Nat} (h : n < l.length) : l.getD n d ∈ l := by
  rw [List.getD_eq_getElem?_getD, List.getElem?_eq_getElem h]
  simp only [Option.getD_some]
  exact List.getElem_mem h

theorem median_mem_slice {b1 : List Nat} {lo k hi : Nat} (hlo : lo ≤ k) (hhi : k ≤ hi)
    (hb : hi < b1.length) : b1.getD k 0 ∈ slice b1 lo hi := by
  have h1 : (slice b1 lo hi).getD (k - lo) 0 = b1.getD k 0 := by
    rw [getD_slice (by omega)]
    congr 1
    omega
  rw [← h1]
  apply getD_mem
  rw [length_slice (by omega) hb]
  omega

theorem mem_slice_left {x : Nat} {b : List Nat} {lo k hi : Nat} (h : x ∈ slice b lo (k - 1))
    (h1 : lo < k) (h2 : k ≤ hi + 1) : x ∈ slice b lo hi := by
  rw [slice_split h1 h2]
  exact List.mem_append_left _ h

theorem mem_slice_right {x : Nat} {b : List Nat} {lo k hi : Nat} (h : x ∈ slice b (k + 1) hi)
    (hlo : lo ≤ k) (h2 : k + 1 ≤ hi + 1) : x ∈ slice b lo hi := by
  have hsp := @slice_split b lo (k + 1) hi (by omega) h2
  rw [hsp]
  exact List.mem_append_right _ h

/-- Every non-sentinel slot `build` leaves in the subtree rooted at `index`
holds a value drawn from the subrange `buffer[lo..hi]` it was invoked on
(provided that subtree was all-sentinel beforehand). -/
theorem buildF_mem (values : List (List Int)) (K : Nat) :
    ∀ fuel b t index lo hi depth, lo ≤ hi → hi < b.length → hi + 1 - lo ≤ fuel →
      (∀ s, InSubtree index s → t.getD s EMPTY = EMPTY) →
      ∀ s, InSubtree index s →
        (buildF values K fuel b t index lo hi depth).2.getD s EMPTY = EMPTY ∨
        (buildF values K fuel b t index lo hi depth).2.getD s EMPTY ∈ slice b lo hi := by
  intro fuel
  induction fuel with
  | zero => intro b t index lo hi depth h1 h2 h3; omega
  | succ fuel ih =>
    intro b t index lo hi depth hlohi hhib hfuel hE s hsub
    have hxlo : lo ≤ (lo + hi) / 2 := by omega
    have hxhi : (lo + hi) / 2 ≤ hi := by omega
    have hsli : ¬ InSubtree (index * 2 + 1) index := fun h => by
      have := h.le
      omega
    have hsri : ¬ InSubtree (index * 2 + 2) index := fun h => by
      have := h.le
      omega
    rcases Nat.lt_or_ge lo hi with hlh | hlh
    · have hkhi2 : (lo + hi) / 2 < hi := by omega
      simp only [buildF, if_pos hkhi2, if_pos hlh]
      set b1 := sortRange values (depth % K) b lo hi with hb1
      have hlen1 : b1.length = b.length := length_sortRange values _ b (by omega)
      have hperm1 : List.Perm (slice b1 lo hi) (slice b lo hi) := by
        rw [hb1, slice_sortRange values _ b hlohi hhib]
        exact List.perm_insertionSort _ _
      have hmedmem : b1.getD ((lo + hi) / 2) 0 ∈ slice b lo hi :=
        hperm1.mem_iff.1 (median_mem_slice hxlo hxhi (by omega))
      by_cases h1 : lo < (lo + hi) / 2
      · simp only [if_pos h1]
        set t1 := t.set index (b1.getD ((lo + hi) / 2) 0) with ht1
        obtain ⟨lenL, outL, permL⟩ := buildF_buf values K fuel b1 t1 (index * 2 + 1) lo
          ((lo + hi) / 2 - 1) (depth + 1) (by omega) (by omega) (by omega)
        set bL := (buildF values K fuel b1 t1 (index * 2 + 1) lo ((lo + hi) / 2 - 1)
          (depth + 1)).1 with hbL
        set tL := (buildF values K fuel b1 t1 (index * 2 + 1) lo ((lo + hi) / 2 - 1)
          (depth + 1)).2 with htL
        have hEL : ∀ s2, InSubtree (index * 2 + 1) s2 → t1.getD s2 EMPTY = EMPTY := by
          intro s2 hs2
          rw [ht1, getD_set_ne (by have := hs2.le; omega)]
          exact hE s2 ((InSubtree.left index).trans hs2)
        have hER : ∀ s2, InSubtree (index * 2 + 2) s2 → tL.getD s2 EMPTY = EMPTY := by
          intro s2 hs2
          rw [htL, buildF_frame values K fuel b1 t1 (index * 2 + 1) lo ((lo + hi) / 2 - 1)
            (depth + 1) s2 (fun hl => subtree_disjoint hl hs2)]
          rw [ht1, getD_set_ne (by have := hs2.le; omega)]
          exact hE s2 ((InSubtree.right index).trans hs2)
        rcases hsub.cases with hs | hs | hs
        · rw [hs]
          rw [buildF_frame values K fuel bL tL (index * 2 + 2) ((lo + hi) / 2 + 1) hi
            (depth + 1) index hsri]
          rw [htL, buildF_frame values K fuel b1 t1 (index * 2 + 1) lo ((lo + hi) / 2 - 1)
            (depth + 1) index hsli]
          rcases Nat.lt_or_ge index t.length with hst | hst
          · rw [ht1, getD_set_self hst]
            exact Or.inr hmedmem
          · left
            rw [ht1, getD_oob (by rw [List.length_set]; omega)]
        · rw [buildF_frame values K fuel bL tL (index * 2 + 2) ((lo + hi) / 2 + 1) hi
            (depth + 1) s (fun hr => subtree_disjoint hs hr)]
          rcases ih b1 t1 (index * 2 + 1) lo ((lo + hi) / 2 - 1) (depth + 1) (by omega)
            (by omega) (by omega) hEL s hs with hv | hv
          · exact Or.inl hv
          · exact Or.inr (hperm1.mem_iff.1 (mem_slice_left hv h1 (by omega)))
        · rcases ih bL tL (index * 2 + 2) ((lo + hi) / 2 + 1) hi (depth + 1) (by omega)
            (by omega) (by omega) hER s hs with hv | hv
          · exact Or.inl hv
          · right
            have hsl : slice bL ((lo + hi) / 2 + 1) hi = slice b1 ((lo + hi) / 2 + 1) hi :=
              slice_congr lenL (by omega) (fun p hp1 hp2 => outL p (by omega))
            rw [hsl] at hv
            exact hperm1.mem_iff.1 (mem_slice_right hv hxlo (by omega))
      · have hkeq : (lo + hi) / 2 = lo := by omega
        simp only [if_neg h1]
        set t1 := t.set index (b1.getD ((lo + hi) / 2) 0) with ht1
        have hER : ∀ s2, InSubtree (index * 2 + 2) s2 → t1.getD s2 EMPTY = EMPTY := by
          intro s2 hs2
          rw [ht1, getD_set_ne (by have := hs2.le; omega)]
          exact hE s2 ((InSubtree.right index).trans hs2)
        rcases hsub.cases with hs | hs | hs
        · rw [hs]
          rw [buildF_frame values K fuel b1 t1 (index * 2 + 2) ((lo + hi) / 2 + 1) hi
            (depth + 1) index hsri]
          rcases Nat.lt_or_ge index t.length with hst | hst
          · rw [ht1, getD_set_self hst]
            exact Or.inr hmedmem
          · left
            rw [ht1, getD_oob (by rw [List.length_set]; omega)]
        · left
          rw [buildF_frame values K fuel b1 t1 (index * 2 + 2) ((lo + hi) / 2 + 1) hi
            (depth + 1) s (fun hr => subtree_disjoint hs hr)]
          rw [ht1, getD_set_ne (by have := hs.le; omega)]
          exact hE s ((InSubtree.left index).trans hs)
        · rcases ih b1 t1 (index * 2 + 2) ((lo + hi) / 2 + 1) hi (depth + 1) (by omega)
            (by omega) (by omega) hER s hs with hv | hv
          · exact Or.inl hv
          · right
            exact hperm1.mem_iff.1 (mem_slice_right hv hxlo (by omega))
    · have hlh2 : lo = hi := by omega
      have hkeq : (lo + hi) / 2 = lo := by omega
      have hnk : ¬ (lo + hi) / 2 < hi := by omega
      have hn1 : ¬ lo < (lo + hi) / 2 := by omega
      have hnlh : ¬ lo < hi := by omega
      simp only [buildF, if_neg hnk, if_neg hn1, if_neg hnlh]
      rcases hsub.cases with hs | hs | hs
      · rw [hs]
        rcases Nat.lt_or_ge index t.length with hst | hst
        · rw [getD_set_self hst]
          right
          have : (lo + hi) / 2 = lo := hkeq
          rw [this]
          exact median_mem_slice (Nat.le_refl lo) hlohi hhib
        · left
          rw [getD_oob (by rw [List.length_set]; omega)]
      · left
        rw [getD_set_ne (by have := hs.le; omega)]
        exact hE s ((InSubtree.left index).trans hs)
      · left
        rw [getD_set_ne (by have := hs.le; omega)]
        exact hE s ((InSubtree.right index).trans hs)

end KD

namespace KD

theorem getD_mem_take {l : List Nat} {m n : Nat} (hmn : m < n) (h : m < l.length) :
    l.getD m 0 ∈ l.take n := by
  have h1 : (l.take n).getD m 0 = l.getD m 0 := by
    rw [List.getD_eq_getElem?_getD, List.getD_eq_getElem?_getD, List.getElem?_take_of_lt hmn]
  rw [← h1]
  apply getD_mem
  rw [List.length_take]
  omega

theorem getD_mem_drop {l : List Nat} {m : Nat} (h : m < l.length) :
    l.getD m 0 ∈ l.drop m := by
  have h1 : (l.drop m).getD 0 0 = l.getD m 0 := by
    rw [List.getD_eq_getElem?_getD, List.getD_eq_getElem?_getD, List.getElem?_drop]
    rw [Nat.add_zero]
  rw [← h1]
  apply getD_mem
  rw [List.length_drop]
  omega

theorem slice_take {b : List Nat} {lo k hi : Nat} (hk : lo < k) (hkhi : k ≤ hi + 1) :
    slice b lo (k - 1) = (slice b lo hi).take (k - lo) := by
  show (b.drop lo).take (k - 1 + 1 - lo) = ((b.drop lo).take (hi + 1 - lo)).take (k - lo)
  rw [List.take_take]
  congr 1
  omega

theorem slice_drop {b : List Nat} {lo k hi : Nat} (hk : lo ≤ k) :
    slice b (k + 1) hi = (slice b lo hi).drop (k + 1 - lo) := by
  show (b.drop (k + 1)).take (hi + 1 - (k + 1))
      = ((b.drop lo).take (hi + 1 - lo)).drop (k + 1 - lo)
  rw [List.drop_take, List.drop_drop]
  congr 1
  · omega
  · congr 1
    omega

end KD

namespace KD

/-- The kd ordering `build` establishes inside the subtree rooted at `index`
(initially all-sentinel): for every slot `a` of that subtree, every stored
slot `j` below `a`'s left child holds a point `keyLe`-below `a`'s point on
dimension `heapDepth a % K`, and every stored slot below the right child one
`keyLe`-above it. -/
theorem buildF_kd (values : List (List Int)) (K : Nat) :
    ∀ fuel b t index lo hi depth, lo ≤ hi → hi < b.length → hi + 1 - lo ≤ fuel →
      heapDepth index = depth →
      (∀ s, InSubtree index s → t.getD s EMPTY = EMPTY) →
      ∀ a j, InSubtree index a →
        (buildF values K fuel b t index lo hi depth).2.getD a EMPTY ≠ EMPTY →
        (buildF values K fuel b t index lo hi depth).2.getD j EMPTY ≠ EMPTY →
        (InSubtree (a * 2 + 1) j →
          keyLe values (heapDepth a % K)
            ((buildF values K fuel b t index lo hi depth).2.getD j EMPTY)
            ((buildF values K fuel b t index lo hi depth).2.getD a EMPTY)) ∧
        (InSubtree (a * 2 + 2) j →
          keyLe values (heapDepth a % K)
            ((buildF values K fuel b t index lo hi depth).2.getD a EMPTY)
            ((buildF values K fuel b t index lo hi depth).2.getD j EMPTY)) := by
  intro fuel
  induction fuel with
  | zero => intro b t index lo hi depth h1 h2 h3; omega
  | succ fuel ih =>
    intro b t index lo hi depth hlohi hhib hfuel hd hE a j hsubA
    have hxlo : lo ≤ (lo + hi) / 2 := by omega
    have hxhi : (lo + hi) / 2 ≤ hi := by omega
    have hsli : ¬ InSubtree (index * 2 + 1) index := fun h => by
      have := h.le
      omega
    have hsri : ¬ InSubtree (index * 2 + 2) index := fun h => by
      have := h.le
      omega
    rcases Nat.lt_or_ge lo hi with hlh | hlh
    · have hkhi2 : (lo + hi) / 2 < hi := by omega
      simp only [buildF, if_pos hkhi2, if_pos hlh]
      set b1 := sortRange values (depth % K) b lo hi with hb1
      have hlen1 : b1.length = b.length := length_sortRange values _ b (by omega)
      have hsorted : List.Sorted (keyLe values (depth % K)) (slice b1 lo hi) := by
        rw [hb1, slice_sortRange values _ b hlohi hhib]
        exact List.sorted_insertionSort _ _
      have hslen : (slice b1 lo hi).length = hi + 1 - lo := length_slice hlohi (by omega)
      have hmedget : (slice b1 lo hi).getD ((lo + hi) / 2 - lo) 0
          = b1.getD ((lo + hi) / 2) 0 := by
        rw [getD_slice (by omega)]
        congr 1
        omega
      by_cases h1 : lo < (lo + hi) / 2
      · simp only [if_pos h1]
        set t1 := t.set index (b1.getD ((lo + hi) / 2) 0) with ht1
        obtain ⟨lenL, outL, permL⟩ := buildF_buf values K fuel b1 t1 (index * 2 + 1) lo
          ((lo + hi) / 2 - 1) (depth + 1) (by omega) (by omega) (by omega)
        set bL := (buildF values K fuel b1 t1 (index * 2 + 1) lo ((lo + hi) / 2 - 1)
          (depth + 1)).1 with hbL
        set tL := (buildF values K fuel b1 t1 (index * 2 + 1) lo ((lo + hi) / 2 - 1)
          (depth + 1)).2 with htL
        set tR := (buildF values K fuel bL tL (index * 2 + 2) ((lo + hi) / 2 + 1) hi
          (depth + 1)).2 with htR
        have hEL : ∀ s2, InSubtree (index * 2 + 1) s2 → t1.getD s2 EMPTY = EMPTY := by
          intro s2 hs2
          rw [ht1, getD_set_ne (by have := hs2.le; omega)]
          exact hE s2 ((InSubtree.left index).trans hs2)
        have hER : ∀ s2, InSubtree (index * 2 + 2) s2 → tL.getD s2 EMPTY = EMPTY := by
          intro s2 hs2
          rw [htL, buildF_frame values K fuel b1 t1 (index * 2 + 1) lo ((lo + hi) / 2 - 1)
            (depth + 1) s2 (fun hl => subtree_disjoint hl hs2)]
          rw [ht1, getD_set_ne (by have := hs2.le; omega)]
          exact hE s2 ((InSubtree.right index).trans hs2)
        have hfrR : ∀ s2, ¬ InSubtree (index * 2 + 2) s2 →
            tR.getD s2 EMPTY = tL.getD s2 EMPTY := by
          intro s2 hs2
          rw [htR, buildF_frame values K fuel bL tL (index * 2 + 2) ((lo + hi) / 2 + 1) hi
            (depth + 1) s2 hs2]
        have hfrL : ∀ s2, ¬ InSubtree (index * 2 + 1) s2 →
            tL.getD s2 EMPTY = t1.getD s2 EMPTY := by
          intro s2 hs2
          rw [htL, buildF_frame values K fuel b1 t1 (index * 2 + 1) lo ((lo + hi) / 2 - 1)
            (depth + 1) s2 hs2]
        intro haNE hjNE
        rcases hsubA.cases with hs | hs | hs
        · rw [hs] at haNE ⊢
          have hval : tR.getD index EMPTY = t1.getD index EMPTY := by
            rw [hfrR index hsri, hfrL index hsli]
          rcases Nat.lt_or_ge index t.length with hst | hst
          · have hx : tR.getD index EMPTY = b1.getD ((lo + hi) / 2) 0 := by
              rw [hval, ht1, getD_set_self hst]
            constructor
            · intro hj
              have hjv : tR.getD j EMPTY = tL.getD j EMPTY :=
                hfrR j (fun hr => subtree_disjoint hj hr)
              have hmem := buildF_mem values K fuel b1 t1 (index * 2 + 1) lo
                ((lo + hi) / 2 - 1) (depth + 1) (by omega) (by omega) (by omega) hEL j hj
              rw [← htL] at hmem
              rcases hmem with hv | hv
              · rw [hjv] at hjNE
                exact absurd hv hjNE
              · rw [hjv, hx, hd]
                have hvtake : tL.getD j EMPTY
                    ∈ (slice b1 lo hi).take ((lo + hi) / 2 - lo) := by
                  rw [← slice_take h1 (by omega)]
                  exact hv
                have hxdrop : b1.getD ((lo + hi) / 2) 0
                    ∈ (slice b1 lo hi).drop ((lo + hi) / 2 - lo) := by
                  rw [← hmedget]
                  exact getD_mem_drop (by omega)
                exact hsorted.rel_of_mem_take_of_mem_drop hvtake hxdrop
            · intro hj
              have hmem := buildF_mem values K fuel bL tL (index * 2 + 2)
                ((lo + hi) / 2 + 1) hi (depth + 1) (by omega) (by omega) (by omega) hER j hj
              rw [← htR] at hmem
              rcases hmem with hv | hv
              · exact absurd hv hjNE
              · have hsl : slice bL ((lo + hi) / 2 + 1) hi
                    = slice b1 ((lo + hi) / 2 + 1) hi :=
                  slice_congr lenL (by omega) (fun p hp1 hp2 => outL p (by omega))
                rw [hsl] at hv
                rw [hx, hd]
                have hvdrop : tR.getD j EMPTY
                    ∈ (slice b1 lo hi).drop ((lo + hi) / 2 + 1 - lo) := by
                  rw [← slice_drop hxlo]
                  exact hv
                have hxtake : b1.getD ((lo + hi) / 2) 0
                    ∈ (slice b1 lo hi).take ((lo + hi) / 2 + 1 - lo) := by
                  rw [← hmedget]
                  exact getD_mem_take (by omega) (by omega)
                exact hsorted.rel_of_mem_take_of_mem_drop hxtake hvdrop
          · exfalso
            apply haNE
            rw [hval, ht1, getD_oob (by rw [List.length_set]; omega)]
        · have haT : tR.getD a EMPTY = tL.getD a EMPTY :=
            hfrR a (fun hr => subtree_disjoint hs hr)
          have haNE2 : tL.getD a EMPTY ≠ EMPTY := by
            rw [← haT]
            exact haNE
          constructor
          · intro hj
            have hjsub : InSubtree (index * 2 + 1) j := hs.trans ((InSubtree.left a).trans hj)
            have hjT : tR.getD j EMPTY = tL.getD j EMPTY :=
              hfrR j (fun hr => subtree_disjoint hjsub hr)
            have hjNE2 : tL.getD j EMPTY ≠ EMPTY := by
              rw [← hjT]
              exact hjNE
            have ihL := ih b1 t1 (index * 2 + 1) lo ((lo + hi) / 2 - 1) (depth + 1)
              (by omega) (by omega) (by omega) (by rw [heapDepth_left, hd]) hEL a j hs
              (by rw [htL] at haNE2; exact haNE2) (by rw [htL] at hjNE2; exact hjNE2)
            have hc := ihL.1 hj
            rw [← htL] at hc
            rw [haT, hjT]
            exact hc
          · intro hj
            have hjsub : InSubtree (index * 2 + 1) j :=
              hs.trans ((InSubtree.right a).trans hj)
            have hjT : tR.getD j EMPTY = tL.getD j EMPTY :=
              hfrR j (fun hr => subtree_disjoint hjsub hr)
            have hjNE2 : tL.getD j EMPTY ≠ EMPTY := by
              rw [← hjT]
              exact hjNE
            have ihL := ih b1 t1 (index * 2 + 1) lo ((lo + hi) / 2 - 1) (depth + 1)
              (by omega) (by omega) (by omega) (by rw [heapDepth_left, hd]) hEL a j hs
              (by rw [htL] at haNE2; exact haNE2) (by rw [htL] at hjNE2; exact hjNE2)
            have hc := ihL.2 hj
            rw [← htL] at hc
            rw [haT, hjT]
            exact hc
        · have ihR := ih bL tL (index * 2 + 2) ((lo + hi) / 2 + 1) hi (depth + 1)
            (by omega) (by omega) (by omega) (by rw [heapDepth_right, hd]) hER a j hs
            (by rw [htR] at haNE; exact haNE) (by rw [htR] at hjNE; exact hjNE)
          constructor
          · intro hj
            have hc := ihR.1 hj
            rw [← htR] at hc
            exact hc
          · intro hj
            have hc := ihR.2 hj
            rw [← htR] at hc
            exact hc
      · have hkeq : (lo + hi) / 2 = lo := by omega
        simp only [if_neg h1]
        set t1 := t.set index (b1.getD ((lo + hi) / 2) 0) with ht1
        set tR := (buildF values K fuel b1 t1 (index * 2 + 2) ((lo + hi) / 2 + 1) hi
          (depth + 1)).2 with htR
        have hER : ∀ s2, InSubtree (index * 2 + 2) s2 → t1.getD s2 EMPTY = EMPTY := by
          intro s2 hs2
          rw [ht1, getD_set_ne (by have := hs2.le; omega)]
          exact hE s2 ((InSubtree.right index).trans hs2)
        have hfrR : ∀ s2, ¬ InSubtree (index * 2 + 2) s2 →
            tR.getD s2 EMPTY = t1.getD s2 EMPTY := by
          intro s2 hs2
          rw [htR, buildF_frame values K fuel b1 t1 (index * 2 + 2) ((lo + hi) / 2 + 1) hi
            (depth + 1) s2 hs2]
        intro haNE hjNE
        rcases hsubA.cases with hs | hs | hs
        · rw [hs] at haNE ⊢
          have hval : tR.getD index EMPTY = t1.getD index EMPTY := hfrR index hsri
          rcases Nat.lt_or_ge index t.length with hst | hst
          · have hx : tR.getD index EMPTY = b1.getD ((lo + hi) / 2) 0 := by
              rw [hval, ht1, getD_set_self hst]
            constructor
            · intro hj
              exfalso
              apply hjNE
              rw [hfrR j (fun hr => subtree_disjoint hj hr),
                ht1, getD_set_ne (by have := hj.le; omega)]
              exact hE j ((InSubtree.left index).trans hj)
            · intro hj
              have hmem := buildF_mem values K fuel b1 t1 (index * 2 + 2)
                ((lo + hi) / 2 + 1) hi (depth + 1) (by omega) (by omega) (by omega) hER j hj
              rw [← htR] at hmem
              rcases hmem with hv | hv
              · exact absurd hv hjNE
              · rw [hx, hd]
                have hvdrop : tR.getD j EMPTY
                    ∈ (slice b1 lo hi).drop ((lo + hi) / 2 + 1 - lo) := by
                  rw [← slice_drop hxlo]
                  exact hv
                have hxtake : b1.getD ((lo + hi) / 2) 0
                    ∈ (slice b1 lo hi).take ((lo + hi) / 2 + 1 - lo) := by
                  rw [← hmedget]
                  exact getD_mem_take (by omega) (by omega)
                exact hsorted.rel_of_mem_take_of_mem_drop hxtake hvdrop
          · exfalso
            apply haNE
            rw [hval, ht1, getD_oob (by rw [List.length_set]; omega)]
        · exfalso
          apply haNE
          rw [hfrR a (fun hr => subtree_disjoint hs hr),
            ht1, getD_set_ne (by have := hs.le; omega)]
          exact hE a ((InSubtree.left index).trans hs)
        · have ihR := ih b1 t1 (index * 2 + 2) ((lo + hi) / 2 + 1) hi (depth + 1)
            (by omega) (by omega) (by omega) (by rw [heapDepth_right, hd]) hER a j hs
            (by rw [htR] at haNE; exact haNE) (by rw [htR] at hjNE; exact hjNE)
          constructor
          · intro hj
            have hc := ihR.1 hj
            rw [← htR] at hc
            exact hc
          · intro hj
            have hc := ihR.2 hj
            rw [← htR] at hc
            exact hc
    · have hnk : ¬ (lo + hi) / 2 < hi := by omega
      have hn1 : ¬ lo < (lo + hi) / 2 := by omega
      have hnlh : ¬ lo < hi := by omega
      simp only [buildF, if_neg hnk, if_neg hn1, if_neg hnlh]
      intro haNE hjNE
      rcases hsubA.cases with hs | hs | hs
      · rw [hs] at haNE ⊢
        constructor
        · intro hj
          exfalso
          apply hjNE
          rw [getD_set_ne (by have := hj.le; omega)]
          exact hE j ((InSubtree.left index).trans hj)
        · intro hj
          exfalso
          apply hjNE
          rw [getD_set_ne (by have := hj.le; omega)]
          exact hE j ((InSubtree.right index).trans hj)
      · exfalso
        apply haNE
        rw [getD_set_ne (by have := hs.le; omega)]
        exact hE a ((InSubtree.left index).trans hs)
      · exfalso
        apply haNE
        rw [getD_set_ne (by have := hs.le; omega)]
        exact hE a ((InSubtree.right index).trans hs)

end KD

namespace KD

/-! ## Facts about the query recursion -/

theorem find_none (values : List (List Int)) (K : Nat) (qlo qhi : List Int) (tree : List Nat)
    (L index depth : Nat) (pts : List Nat) (hlen : tree.length = L)
    (h : L ≤ index ∨ tree.getD index EMPTY = EMPTY) :
    find values K qlo qhi tree L index depth pts = none := by
  unfold find
  rcases h with hLi | hemp
  · have hx : tree[index]? = none := List.getElem?_eq_none (by omega)
    simp [findF, hx]
  · rcases Nat.lt_or_ge index tree.length with hlt | hge
    · have hemp2 : tree[index] = EMPTY := by
        rw [List.getD_eq_getElem?_getD, List.getElem?_eq_getElem hlt] at hemp
        simpa using hemp
      have hx : tree[index]? = some EMPTY := by
        rw [List.getElem?_eq_getElem hlt, hemp2]
      simp [findF, hx]
    · have hx : tree[index]? = none := List.getElem?_eq_none (by omega)
      simp [findF, hx]

theorem findF_isSome (values : List (List Int)) (K : Nat) (qlo qhi : List Int)
    (tree : List Nat) (L : Nat) :
    ∀ fuel index depth pts, L - index < fuel → tree.length = L → index < L →
      tree.getD index EMPTY < EMPTY →
      ∃ r, findF values K qlo qhi tree L fuel index depth pts = some r := by
  intro fuel
  induction fuel with
  | zero => intro index depth pts h1 h2 h3; omega
  | succ fuel ih =>
    intro index depth pts hfuel hlen hiL hne
    have hidx : index < tree.length := by omega
    have hx : tree[index]? = some (tree.getD index EMPTY) := by
      rw [List.getElem?_eq_getElem hidx, List.getD_eq_getElem?_getD,
        List.getElem?_eq_getElem hidx]
      rfl
    simp only [findF, hx]
    rw [if_pos hne]
    by_cases hbox : inBox values K qlo qhi (tree.getD index EMPTY) = true
    · rw [if_pos hbox]
      by_cases hc1 : index * 2 + 1 < L ∧ tree.getD (index * 2 + 1) EMPTY < EMPTY ∧
          qlo.getD (depth % K) 0 ≤ ordv values (tree.getD index EMPTY) (depth % K)
      · obtain ⟨r1, hr1⟩ := ih (index * 2 + 1) (depth + 1)
          (pts ++ [tree.getD index EMPTY]) (by omega) hlen hc1.1 hc1.2.1
        simp only [if_pos hc1, hr1]
        by_cases hc2 : index * 2 + 1 + 1 < L ∧ tree.getD (index * 2 + 1 + 1) EMPTY < EMPTY ∧
            ordv values (tree.getD index EMPTY) (depth % K) ≤ qhi.getD (depth % K) 0
        · obtain ⟨r2, hr2⟩ := ih (index * 2 + 1 + 1) (depth + 1) r1 (by omega) hlen
            hc2.1 hc2.2.1
          simp only [if_pos hc2]
          exact ⟨r2, hr2⟩
        · simp only [if_neg hc2]
          exact ⟨r1, rfl⟩
      · simp only [if_neg hc1]
        by_cases hc2 : index * 2 + 1 + 1 < L ∧ tree.getD (index * 2 + 1 + 1) EMPTY < EMPTY ∧
            ordv values (tree.getD index EMPTY) (depth % K) ≤ qhi.getD (depth % K) 0
        · obtain ⟨r2, hr2⟩ := ih (index * 2 + 1 + 1) (depth + 1)
            (pts ++ [tree.getD index EMPTY]) (by omega) hlen hc2.1 hc2.2.1
          simp only [if_pos hc2]
          exact ⟨r2, hr2⟩
        · simp only [if_neg hc2]
          exact ⟨pts ++ [tree.getD index EMPTY], rfl⟩
    · rw [if_neg hbox]
      by_cases hc1 : index * 2 + 1 < L ∧ tree.getD (index * 2 + 1) EMPTY < EMPTY ∧
          qlo.getD (depth % K) 0 ≤ ordv values (tree.getD index EMPTY) (depth % K)
      · obtain ⟨r1, hr1⟩ := ih (index * 2 + 1) (depth + 1) pts (by omega) hlen hc1.1 hc1.2.1
        simp only [if_pos hc1, hr1]
        by_cases hc2 : index * 2 + 1 + 1 < L ∧ tree.getD (index * 2 + 1 + 1) EMPTY < EMPTY ∧
            ordv values (tree.getD index EMPTY) (depth % K) ≤ qhi.getD (depth % K) 0
        · obtain ⟨r2, hr2⟩ := ih (index * 2 + 1 + 1) (depth + 1) r1 (by omega) hlen
            hc2.1 hc2.2.1
          simp only [if_pos hc2]
          exact ⟨r2, hr2⟩
        · simp only [if_neg hc2]
          exact ⟨r1, rfl⟩
      · simp only [if_neg hc1]
        by_cases hc2 : index * 2 + 1 + 1 < L ∧ tree.getD (index * 2 + 1 + 1) EMPTY < EMPTY ∧
            ordv values (tree.getD index EMPTY) (depth % K) ≤ qhi.getD (depth % K) 0
        · obtain ⟨r2, hr2⟩ := ih (index * 2 + 1 + 1) (depth + 1) pts (by omega) hlen
            hc2.1 hc2.2.1
          simp only [if_pos hc2]
          exact ⟨r2, hr2⟩
        · simp only [if_neg hc2]
          exact ⟨pts, rfl⟩


theorem findF_append (values : List (List Int)) (K : Nat) (qlo qhi : List Int)
    (tree : List Nat) (L : Nat) :
    ∀ fuel index depth pts r,
      findF values K qlo qhi tree L fuel index depth pts = some r →
      ∃ s, r = pts ++ s := by
  intro fuel
  induction fuel with
  | zero =>
    intro index depth pts r h
    simp [findF] at h
  | succ fuel ih =>
    intro index depth pts r h
    rcases hx : tree[index]? with _ | x
    · simp [findF, hx] at h
    · simp only [findF, hx] at h
      by_cases hlt : x < EMPTY
      · rw [if_pos hlt] at h
        by_cases hbox : inBox values K qlo qhi x = true
        · rw [if_pos hbox] at h
          rcases hstep : (if index * 2 + 1 < L ∧ tree.getD (index * 2 + 1) EMPTY < EMPTY ∧
              qlo.getD (depth % K) 0 ≤ ordv values x (depth % K) then
              findF values K qlo qhi tree L fuel (index * 2 + 1) (depth + 1) (pts ++ [x])
            else some (pts ++ [x])) with _ | p2
          · rw [hstep] at h
            simp at h
          · simp only [hstep] at h
            have hp2 : ∃ s1, p2 = (pts ++ [x]) ++ s1 := by
              by_cases hc1 : index * 2 + 1 < L ∧ tree.getD (index * 2 + 1) EMPTY < EMPTY ∧
                  qlo.getD (depth % K) 0 ≤ ordv values x (depth % K)
              · rw [if_pos hc1] at hstep
                exact ih _ _ _ _ hstep
              · rw [if_neg hc1] at hstep
                injection hstep with h2
                exact ⟨[], by rw [← h2]; simp⟩
            obtain ⟨s1, hs1⟩ := hp2
            by_cases hc2 : index * 2 + 1 + 1 < L ∧
                tree.getD (index * 2 + 1 + 1) EMPTY < EMPTY ∧
                ordv values x (depth % K) ≤ qhi.getD (depth % K) 0
            · rw [if_pos hc2] at h
              obtain ⟨s2, hs2⟩ := ih _ _ _ _ h
              exact ⟨[x] ++ s1 ++ s2, by rw [hs2, hs1]; simp⟩
            · rw [if_neg hc2] at h
              injection h with h2
              exact ⟨[x] ++ s1, by rw [← h2, hs1]; simp⟩
        · rw [if_neg hbox] at h
          rcases hstep : (if index * 2 + 1 < L ∧ tree.getD (index * 2 + 1) EMPTY < EMPTY ∧
              qlo.getD (depth % K) 0 ≤ ordv values x (depth % K) then
              findF values K qlo qhi tree L fuel (index * 2 + 1) (depth + 1) pts
            else some pts) with _ | p2
          · rw [hstep] at h
            simp at h
          · simp only [hstep] at h
            have hp2 : ∃ s1, p2 = pts ++ s1 := by
              by_cases hc1 : index * 2 + 1 < L ∧ tree.getD (index * 2 + 1) EMPTY < EMPTY ∧
                  qlo.getD (depth % K) 0 ≤ ordv values x (depth % K)
              · rw [if_pos hc1] at hstep
                exact ih _ _ _ _ hstep
              · rw [if_neg hc1] at hstep
                injection hstep with h2
                exact ⟨[], by rw [← h2]; simp⟩
            obtain ⟨s1, hs1⟩ := hp2
            by_cases hc2 : index * 2 + 1 + 1 < L ∧
                tree.getD (index * 2 + 1 + 1) EMPTY < EMPTY ∧
                ordv values x (depth % K) ≤ qhi.getD (depth % K) 0
            · rw [if_pos hc2] at h
              obtain ⟨s2, hs2⟩ := ih _ _ _ _ h
              exact ⟨s1 ++ s2, by rw [hs2, hs1]; simp⟩
            · rw [if_neg hc2] at h
              injection h with h2
              exact ⟨s1, by rw [← h2, hs1]⟩
      · rw [if_neg hlt] at h
        simp at h

end KD

namespace KD

theorem getD_replicate (l s : Nat) : (List.replicate l EMPTY).getD s EMPTY = EMPTY := by
  rw [List.getD_eq_getElem?_getD, List.getElem?_replicate]
  split <;> rfl

theorem slice_range (M : Nat) (hM : 1 ≤ M) :
    slice (List.range M) 0 (M - 1) = List.range M := by
  show ((List.range M).drop 0).take (M - 1 + 1 - 0) = List.range M
  rw [List.drop_zero]
  have h : M - 1 + 1 - 0 = M := by omega
  rw [h]
  exact List.take_of_length_le (by rw [List.length_range])

/-- `buildF` does not depend on the fuel, as long as the fuel is at least
the size of the sub-range (which bounds the recursion depth). -/
theorem buildF_congr (values : List (List Int)) (K : Nat) :
    ∀ f1 f2 b t index lo hi depth, lo ≤ hi →
      hi + 1 - lo ≤ f1 → hi + 1 - lo ≤ f2 →
      buildF values K f1 b t index lo hi depth = buildF values K f2 b t index lo hi depth := by
  intro f1
  induction f1 with
  | zero => intro f2 b t index lo hi depth h1 h2 h3; omega
  | succ f1 ih =>
    intro f2 b t index lo hi depth hlohi hf1 hf2
    cases f2 with
    | zero => omega
    | succ f2 =>
      simp only [buildF]
      by_cases h2 : (lo + hi) / 2 < hi <;> by_cases h1 : lo < (lo + hi) / 2 <;>
        simp only [if_pos, if_neg, h1, h2, ite_true, ite_false]
      all_goals first
        | rfl
        | (rw [ih f2 _ _ (index * 2 + 1) lo ((lo + hi) / 2 - 1) (depth + 1) (by omega)
              (by omega) (by omega)]
           rw [ih f2 _ _ (index * 2 + 2) ((lo + hi) / 2 + 1) hi (depth + 1) (by omega)
              (by omega) (by omega)])
        | (rw [ih f2 _ _ (index * 2 + 2) ((lo + hi) / 2 + 1) hi (depth + 1) (by omega)
              (by omega) (by omega)])
        | (exfalso; omega)

end KD

namespace KD

/-- Claim C9: `find` only appends to the caller's output vector — any normal
return extends the incoming `points` on the right, preserving its contents —
and the partition step reorders only working-buffer entries inside `[lo, hi]`,
leaving every position outside that sub-range unchanged.  (The point values
themselves are never written: the collection is a `const` view in the source
and a read-only parameter of every definition here, and `find` performs no
store to the tree array.) -/
theorem C9_frame :
    (∀ (values : List (List Int)) (K : Nat) (qlo qhi : List Int) (tree : List Nat)
      (L index depth : Nat) (pts r : List Nat),
      find values K qlo qhi tree L index depth pts = some r → ∃ s, r = pts ++ s) ∧
    (∀ (values : List (List Int)) (dm : Nat) (b : List Nat) (lo hi p : Nat),
      lo ≤ hi → hi < b.length → (p < lo ∨ hi < p) →
      (sortRange values dm b lo hi).getD p 0 = b.getD p 0) := by
  constructor
  · intro values K qlo qhi tree L index depth pts r h
    exact findF_append values K qlo qhi tree L (L + 1) index depth pts r h
  · intro values dm b lo hi p h1 h2 h3
    exact getD_sortRange_outside values dm b h1 h2 h3

theorem C9_frame_witness :
    (∃ s, [5, 0] = [5] ++ s) ∧ (sortRange [[1], [0]] 0 [1, 0, 7] 0 1).getD 2 0 = 7 := by
  constructor
  · exact C9_frame.1 [[7]] 1 [0] [10] [0] 1 0 0 [5] [5, 0] (by decide)
  · have h := C9_frame.2 [[1], [0]] 0 [1, 0, 7] 0 1 2 (by decide) (by decide) (by decide)
    rw [h]
    rfl

/-- Claim C5 (amended): the bound/sentinel test the spec calls "base
rejection" is implemented at the recursive call sites, not at `find`'s entry.
A call entered at a valid non-sentinel slot always returns normally — the
guards `k < length_ && tree_[k] < ~0LU` stop the recursion at any child that
is out of bounds or empty — while a direct invocation of `find` at a slot
with `index ≥ L` or a sentinel value does not return normally: it is an
out-of-bounds read / failed entry assertion. -/
theorem C5_guarded_recursion :
    (∀ (values : List (List Int)) (K : Nat) (qlo qhi : List Int) (tree : List Nat)
      (L index depth : Nat) (pts : List Nat), tree.length = L →
      (L ≤ index ∨ tree.getD index EMPTY = EMPTY) →
      find values K qlo qhi tree L index depth pts = none) ∧
    (∀ (values : List (List Int)) (K : Nat) (qlo qhi : List Int) (tree : List Nat)
      (L index depth : Nat) (pts : List Nat), tree.length = L → index < L →
      tree.getD index EMPTY < EMPTY →
      ∃ r, find values K qlo qhi tree L index depth pts = some r) := by
  constructor
  · intro values K qlo qhi tree L index depth pts hlen h
    exact find_none values K qlo qhi tree L index depth pts hlen h
  · intro values K qlo qhi tree L index depth pts hlen hiL hne
    exact findF_isSome values K qlo qhi tree L (L + 1) index depth pts (by omega) hlen hiL hne

theorem C5_guarded_recursion_witness :
    find [[0]] 1 [0] [0] [EMPTY, 0] 2 5 0 [] = none ∧
    ∃ r, find [[7]] 1 [0] [10] [0] 1 0 0 [] = some r := by
  constructor
  · exact C5_guarded_recursion.1 [[0]] 1 [0] [0] [EMPTY, 0] 2 5 0 [] (by decide)
      (Or.inl (by decide))
  · exact C5_guarded_recursion.2 [[7]] 1 [0] [10] [0] 1 0 0 [] (by decide) (by decide)
      (by decide)

/-- Claim C3: how the builder processes a sub-range `[lo, hi]` for slot
`index` at depth `depth`.  The median is always `(lo + hi) / 2`.  When
`lo = hi` the buffer entry is committed directly and the partitioner is not
invoked (the working buffer comes back unchanged).  When `lo < hi` the
sub-range is partitioned on dimension `depth % K`, the median entry is
committed to slot `index`, and the builder recurses into slot `2*index + 1`
over `[lo, median - 1]` exactly when that sub-range is non-empty
(`lo < median`) and into slot `2*index + 2` over `[median + 1, hi]` exactly
when non-empty (`median < hi`), both at `depth + 1`. -/
theorem C3_builder_step :
    ∀ (values : List (List Int)) (K : Nat) (b t : List Nat) (index lo hi depth : Nat),
      (lo = hi → build values K b t index lo hi depth
        = (b, t.set index (b.getD lo 0))) ∧
      (lo < hi → build values K b t index lo hi depth =
        (let median := (lo + hi) / 2
         let b1 := sortRange values (depth % K) b lo hi
         let t1 := t.set index (b1.getD median 0)
         let p := if lo < median then
             build values K b1 t1 (index * 2 + 1) lo (median - 1) (depth + 1)
           else (b1, t1)
         if median < hi then
           build values K p.1 p.2 (index * 2 + 2) (median + 1) hi (depth + 1)
         else p)) := by
  intro values K b t index lo hi depth
  constructor
  · intro h
    subst h
    show buildF values K (lo + 1 - lo) b t index lo lo depth = _
    rw [show lo + 1 - lo = 0 + 1 from by omega]
    have hnk : ¬ (lo + lo) / 2 < lo := by omega
    have hn1 : ¬ lo < (lo + lo) / 2 := by omega
    have hnlh : ¬ lo < lo := by omega
    simp only [buildF, if_neg hnk, if_neg hn1, if_neg hnlh]
    rw [show (lo + lo) / 2 = lo from by omega]
  · intro h
    have hkhi : (lo + hi) / 2 < hi := by omega
    show buildF values K (hi + 1 - lo) b t index lo hi depth = _
    rw [show hi + 1 - lo = (hi - lo) + 1 from by omega]
    simp only [buildF, build, if_pos hkhi, if_pos h]
    by_cases h1 : lo < (lo + hi) / 2
    · simp only [if_pos h1]
      rw [buildF_congr values K (hi - lo) ((lo + hi) / 2 - 1 + 1 - lo)
        (sortRange values (depth % K) b lo hi)
        (t.set index ((sortRange values (depth % K) b lo hi).getD ((lo + hi) / 2) 0))
        (index * 2 + 1) lo ((lo + hi) / 2 - 1) (depth + 1) (by omega) (by omega) (by omega)]
      rw [buildF_congr values K (hi - lo) (hi + 1 - ((lo + hi) / 2 + 1)) _ _
        (index * 2 + 2) ((lo + hi) / 2 + 1) hi (depth + 1) (by omega) (by omega) (by omega)]
    · simp only [if_neg h1]
      rw [buildF_congr values K (hi - lo) (hi + 1 - ((lo + hi) / 2 + 1)) _ _
        (index * 2 + 2) ((lo + hi) / 2 + 1) hi (depth + 1) (by omega) (by omega) (by omega)]

theorem C3_builder_step_witness :
    build [] 1 [5, 7] [9, 9, 9] 0 1 1 0 = ([5, 7], [7, 9, 9]) ∧
    build [[1], [0]] 1 [0, 1] [9, 9, 9] 0 0 1 0 = ([1, 0], [1, 9, 0]) := by
  constructor
  · exact ((C3_builder_step [] 1 [5, 7] [9, 9, 9] 0 1 1 0).1 rfl).trans (by decide)
  · exact ((C3_builder_step [[1], [0]] 1 [0, 1] [9, 9, 9] 0 0 1 0).2 (by decide)).trans
      (by decide)

/-- Claim C7: after a successful `prepare` with `M ≥ 1` points, the stored
capacity `length_` is the smallest power of two that is `≥ M`, it is the
length of the tree array, and every slot holds either a valid point index
(`< M`) or the empty sentinel. -/
theorem C7_sizing (values : List (List Int)) (K M : Nat) (hM : 1 ≤ M) :
    (∃ j, (prepare values K M).2 = 2 ^ j) ∧
    M ≤ (prepare values K M).2 ∧
    (∀ j, M ≤ 2 ^ j → (prepare values K M).2 ≤ 2 ^ j) ∧
    (prepare values K M).1.length = (prepare values K M).2 ∧
    (∀ s, (prepare values K M).1.getD s EMPTY = EMPTY ∨
      (prepare values K M).1.getD s EMPTY < M) := by
  obtain ⟨hge, hpow, hleast⟩ := nextPow2_spec M
  refine ⟨hpow, hge, hleast, ?_, ?_⟩
  · show (buildF values K (M - 1 + 1 - 0) (List.range M)
        (List.replicate (nextPow2 M) EMPTY) 0 0 (M - 1) 0).2.length = nextPow2 M
    rw [buildF_length, List.length_replicate]
  · intro s
    have h := buildF_mem values K (M - 1 + 1 - 0) (List.range M)
      (List.replicate (nextPow2 M) EMPTY) 0 0 (M - 1) 0 (by omega)
      (by rw [List.length_range]; omega) (by omega)
      (fun s2 _ => getD_replicate _ _) s (InSubtree_zero s)
    rcases h with h | h
    · exact Or.inl h
    · right
      rw [slice_range M hM] at h
      exact List.mem_range.1 h

theorem C7_sizing_witness :
    1 ≤ 6 ∧
    ((∃ j, (prepare demoValues 2 6).2 = 2 ^ j) ∧
     6 ≤ (prepare demoValues 2 6).2 ∧
     (∀ j, 6 ≤ 2 ^ j → (prepare demoValues 2 6).2 ≤ 2 ^ j) ∧
     (prepare demoValues 2 6).1.length = (prepare demoValues 2 6).2 ∧
     (∀ s, (prepare demoValues 2 6).1.getD s EMPTY = EMPTY ∨
       (prepare demoValues 2 6).1.getD s EMPTY < 6)) :=
  ⟨by decide, C7_sizing demoValues 2 6 (by decide)⟩

/-- Claim C2: after a successful `prepare` on any collection of `M ≥ 1`
points, the tree array satisfies the kd-property: for every non-sentinel
slot `i` at tree depth `heapDepth i`, with `dim = heapDepth i % K`, every
non-sentinel slot `j` reachable via `i`'s left child `2i + 1` holds a point
index whose `dim`-ordinate is at most slot `i`'s, and every non-sentinel
slot reachable via the right child `2i + 2` holds one whose `dim`-ordinate
is at least it. -/
theorem C2_kd_property (values : List (List Int)) (K M : Nat) (hM : 1 ≤ M) (i j : Nat)
    (hne1 : (prepare values K M).1.getD i EMPTY ≠ EMPTY)
    (hne2 : (prepare values K M).1.getD j EMPTY ≠ EMPTY) :
    (InSubtree (i * 2 + 1) j →
      ordv values ((prepare values K M).1.getD j EMPTY) (heapDepth i % K) ≤
        ordv values ((prepare values K M).1.getD i EMPTY) (heapDepth i % K)) ∧
    (InSubtree (i * 2 + 2) j →
      ordv values ((prepare values K M).1.getD i EMPTY) (heapDepth i % K) ≤
        ordv values ((prepare values K M).1.getD j EMPTY) (heapDepth i % K)) := by
  have h := buildF_kd values K (M - 1 + 1 - 0) (List.range M)
    (List.replicate (nextPow2 M) EMPTY) 0 0 (M - 1) 0 (by omega)
    (by rw [List.length_range]; omega) (by omega) heapDepth_zero
    (fun s _ => getD_replicate _ _) i j (InSubtree_zero i) hne1 hne2
  exact h

theorem C2_kd_property_witness :
    ((prepare demoValues 2 6).1.getD 0 EMPTY ≠ EMPTY) ∧
    ((prepare demoValues 2 6).1.getD 1 EMPTY ≠ EMPTY) ∧
    ordv demoValues ((prepare demoValues 2 6).1.getD 1 EMPTY) (heapDepth 0 % 2) ≤
      ordv demoValues ((prepare demoValues 2 6).1.getD 0 EMPTY) (heapDepth 0 % 2) := by
  refine ⟨by decide, by decide, ?_⟩
  exact (C2_kd_property demoValues 2 6 (by decide) 0 1 (by decide) (by decide)).1
    ⟨0, by decide⟩

end KD
